import Mathlib

/-!
Verification development for the question-paper analyser pipeline.

The pipeline source is a TypeScript single-page application.  The parts with
algorithmic content are embedded here shallowly:

* string normalization (trim, lowercase, whitespace collapse) used for the
  per-file duplicate removal and the cross-document aggregation key;
* the response handling of extractQuestionsFromFile;
* the client-side aggregation loop of analyzeRepeatedQuestions;
* the orchestration in processFiles (success filtering, summary, progress);
* the image normalization in compressImage and fileToGenerativePart.

JavaScript strings are modelled as lists of characters; fallible backend
calls are modelled by explicit outcome parameters (the value the external
call settled with); JavaScript number arithmetic is modelled over Rat.
-/

namespace QPA

/-- JavaScript strings, modelled as lists of characters. -/
abbrev JStr := List Char

/-- Whitespace test modelling the JavaScript character class of the regular
expression in source line 419 and of String.prototype.trim, on the character
repertoire relevant here: space, tab, line feed, vertical tab, form feed,
carriage return, no-break space. -/
def isWs (c : Char) : Bool :=
  c.toNat = 32 || c.toNat = 9 || c.toNat = 10 || c.toNat = 11 || c.toNat = 12 ||
    c.toNat = 13 || c.toNat = 160

/-- ASCII model of String.prototype.toLowerCase: the twenty-six uppercase
letters map to their lowercase counterparts, every other character is kept. -/
def toLowerC (c : Char) : Char :=
  match c with
  | 'A' => 'a'
  | 'B' => 'b'
  | 'C' => 'c'
  | 'D' => 'd'
  | 'E' => 'e'
  | 'F' => 'f'
  | 'G' => 'g'
  | 'H' => 'h'
  | 'I' => 'i'
  | 'J' => 'j'
  | 'K' => 'k'
  | 'L' => 'l'
  | 'M' => 'm'
  | 'N' => 'n'
  | 'O' => 'o'
  | 'P' => 'p'
  | 'Q' => 'q'
  | 'R' => 'r'
  | 'S' => 's'
  | 'T' => 't'
  | 'U' => 'u'
  | 'V' => 'v'
  | 'W' => 'w'
  | 'X' => 'x'
  | 'Y' => 'y'
  | 'Z' => 'z'
  | _ => c

/-- Pointwise lowercasing of a string. -/
def toLowerL (s : JStr) : JStr := s.map toLowerC

/-- Removal of trailing whitespace. -/
def trimRight : JStr → JStr
  | [] => []
  | c :: cs =>
    match trimRight cs with
    | [] => if isWs c then [] else [c]
    | r => c :: r

/-- Model of String.prototype.trim: drop leading then trailing whitespace. -/
def jsTrim (s : JStr) : JStr := trimRight (s.dropWhile isWs)

/-- Model of replacing every maximal whitespace run by one space, as the
global regular-expression replacement in source line 419 does.  The boolean
argument records whether the previously scanned character was whitespace. -/
def collapseAux : Bool → JStr → JStr
  | _, [] => []
  | b, c :: cs =>
    if isWs c then
      if b then collapseAux true cs else ' ' :: collapseAux true cs
    else c :: collapseAux false cs

/-- Whitespace-run collapse of a whole string. -/
def collapseWs (s : JStr) : JStr := collapseAux false s

/-- The aggregation key computed from the already-trimmed text:
lowercase then collapse whitespace runs (source line 419). -/
def aggKey (cleanText : JStr) : JStr := collapseWs (toLowerL cleanText)

/-- Normalization key of a raw question string: trim (line 414), then
lowercase and collapse whitespace runs (line 419). -/
def normKeyQ (q : JStr) : JStr := aggKey (jsTrim q)

/-- The whitespace-separated words of a string, in order. -/
def tokens : JStr → List JStr
  | [] => []
  | [c] => if isWs c then [] else [[c]]
  | c :: d :: cs =>
    if isWs c then tokens (d :: cs)
    else if isWs d then [c] :: tokens (d :: cs)
    else
      match tokens (d :: cs) with
      | t :: ts => (c :: t) :: ts
      | [] => [[c]]

/-- The lowercased word sequence of a string.  Two strings differ only in
letter case or in whitespace runs exactly when these sequences agree. -/
def tokensLow (s : JStr) : List JStr := (tokens s).map toLowerL

/-- Interleave a single space between the given words. -/
def sepJoin : List JStr → JStr
  | [] => []
  | [t] => t
  | t :: ts => t ++ ' ' :: sepJoin ts

/-- Whether a string begins with a whitespace character. -/
def headWs : JStr → Bool
  | [] => false
  | c :: _ => isWs c

/-- The literal year fallback used throughout the source. -/
def unknown : JStr := "Unknown".toList

/-- Model of the JavaScript expression s or-else d for strings: the left
operand is kept unless it is absent or empty (falsy). -/
def jsOrStr (o : Option JStr) (d : JStr) : JStr :=
  match o with
  | none => d
  | some s => if s = [] then d else s

/-- Model of Array.from applied to a Set built from a list: keep the first
occurrence of each element, in first-seen order.  The accumulator holds the
elements already seen. -/
def dedupAux {α : Type} [DecidableEq α] (seen : List α) : List α → List α
  | [] => []
  | a :: as => if a ∈ seen then dedupAux seen as else a :: dedupAux (a :: seen) as

/-- Exact duplicate removal preserving first-seen order, the semantics of
the Set construction in source line 380. -/
def dedupFirst {α : Type} [DecidableEq α] (l : List α) : List α := dedupAux [] l

/-- The extraction result record of the source (types module): a question
entry is some string, or none when the parsed JSON element is not a string;
the year is absent when the parsed JSON carries no usable year. -/
structure ExtractionResult where
  questions : List (Option JStr)
  year : Option JStr
  sourceFile : JStr
deriving DecidableEq

/-- Outcome of JSON.parse on the backend response text: either the parse
throws, or it yields a value whose year and questions fields may each be
absent. -/
inductive ParseOutcome where
  | fail
  | parsed (year : Option JStr) (questions : Option (List (Option JStr)))
deriving DecidableEq

/-- The message of the error thrown when the backend returns no payload. -/
def noRespMsg : JStr := "No response from Gemini".toList

/-- Response handling of extractQuestionsFromFile, source lines 374 to 391.
The argument resp is none when the backend returned no payload, otherwise
the outcome of JSON.parse on the returned text.  A parse failure is caught
and turned into a successful empty result; only a missing payload throws. -/
def extractQuestionsFromFile (fileName : JStr) (resp : Option ParseOutcome) :
    Except JStr ExtractionResult :=
  match resp with
  | none => .error noRespMsg
  | some .fail => .ok ⟨[], some unknown, fileName⟩
  | some (.parsed y qs) =>
      .ok ⟨dedupFirst (qs.getD []), some (jsOrStr y unknown), fileName⟩

/-- One value of the aggregation map of analyzeRepeatedQuestions: the
first-seen trimmed text and the accumulated list of years. -/
structure QEntry where
  text : JStr
  years : List JStr
deriving DecidableEq

/-- The aggregation map, as an insertion-ordered association list, the
semantics of the JavaScript Map in source line 407. -/
abbrev QMap := List (JStr × QEntry)

/-- Lookup in the aggregation map. -/
def lookupQ (m : QMap) (k : JStr) : Option QEntry :=
  match m with
  | [] => none
  | (k1, e) :: rest => if k1 = k then some e else lookupQ rest k

/-- One Map.has, Map.get, Map.set round of source lines 421 to 429: push the
year onto an existing entry, or append a fresh entry at the end. -/
def addOccurrence (m : QMap) (k : JStr) (text : JStr) (year : JStr) : QMap :=
  match m with
  | [] => [(k, ⟨text, [year]⟩)]
  | (k1, e) :: rest =>
    if k1 = k then (k1, ⟨e.text, e.years ++ [year]⟩) :: rest
    else (k1, e) :: addOccurrence rest k text year

/-- Processing of one question of one extraction result, source lines 411 to
430: skip non-strings and falsy strings, trim, skip noise shorter than three
characters, then record the occurrence under its aggregation key. -/
def stepQuestion (m : QMap) (safeYear : JStr) (q : Option JStr) : QMap :=
  match q with
  | none => m
  | some s =>
    if s = [] then m
    else
      let cleanText := jsTrim s
      if cleanText.length < 3 then m
      else addOccurrence m (aggKey cleanText) cleanText safeYear

/-- The client-side aggregation loop of analyzeRepeatedQuestions, source
lines 407 to 431: fold all extraction results, defaulting an unset or empty
year to the Unknown literal. -/
def analyzeQuestionMap (exs : List ExtractionResult) : QMap :=
  exs.foldl
    (fun m ex =>
      ex.questions.foldl (fun m2 q => stepQuestion m2 (jsOrStr ex.year unknown) q) m)
    []

/-- The accepted trimmed text of a question entry, if the entry survives the
guards of stepQuestion. -/
def acceptQ (q : Option JStr) : Option JStr :=
  match q with
  | none => none
  | some s =>
    if s = [] then none
    else
      let cleanText := jsTrim s
      if cleanText.length < 3 then none else some cleanText

/-- The accepted occurrences contributed by one extraction result, each as a
pair of trimmed text and safe year. -/
def occOf (ex : ExtractionResult) : List (JStr × JStr) :=
  (ex.questions.filterMap acceptQ).map (fun t => (t, jsOrStr ex.year unknown))

/-- All accepted occurrences of a run, in processing order. -/
def occList (exs : List ExtractionResult) : List (JStr × JStr) :=
  exs.flatMap occOf

/-- Folding a flat occurrence list into the aggregation map. -/
def foldOcc (occs : List (JStr × JStr)) (m : QMap) : QMap :=
  occs.foldl (fun m2 o => addOccurrence m2 (aggKey o.1) o.1 o.2) m

/-- The occurrences of a flat list that fall under a given key. -/
def occsAt (occs : List (JStr × JStr)) (k : JStr) : List (JStr × JStr) :=
  occs.filter (fun o => decide (aggKey o.1 = k))

/-- Total number of recorded year elements of an aggregation map. -/
def totalYears (m : QMap) : Nat := (m.map (fun p => p.2.years.length)).sum

/-- A question occurrence is a string whose trimmed length is at least
three; this is the acceptance wording of claim C10. -/
def isAcceptedQ (q : Option JStr) : Bool :=
  match q with
  | none => false
  | some s => decide (3 ≤ (jsTrim s).length)

/-- Number of accepted question occurrences over all extraction results. -/
def acceptedCount (exs : List ExtractionResult) : Nat :=
  (exs.map (fun ex => (ex.questions.filter isAcceptedQ).length)).sum

/-- Re-flattening of an aggregation map: each entry contributes one
single-question extraction result per element of its years list. -/
def reflatten (m : QMap) : List ExtractionResult :=
  m.flatMap (fun p => p.2.years.map (fun y => ⟨[some p.2.text], some y, []⟩))

/-- Well-formedness of one accepted occurrence: the text is trimmed,
truthy, at least three characters long, and the year is non-empty. -/
def OccOk (o : JStr × JStr) : Prop :=
  jsTrim o.1 = o.1 ∧ o.1 ≠ [] ∧ 3 ≤ o.1.length ∧ o.2 ≠ []

/-- Well-formedness of one aggregation entry: the key is the aggregation key
of the stored text, the text is trimmed, truthy and long enough, and the
years list is non-empty with non-empty elements. -/
def EntryOk (p : JStr × QEntry) : Prop :=
  p.1 = aggKey p.2.text ∧ jsTrim p.2.text = p.2.text ∧ p.2.text ≠ [] ∧
    3 ≤ p.2.text.length ∧ p.2.years ≠ [] ∧ ∀ y ∈ p.2.years, y ≠ []

/-- Well-formedness of the aggregation map: all entries are well formed and
the keys are pairwise distinct. -/
def MapOk (m : QMap) : Prop :=
  (∀ p ∈ m, EntryOk p) ∧ (m.map Prod.fst).Nodup

/-- The analysis group schema returned by the grouping backend. -/
structure AnalysisGroup where
  id : JStr
  normalizedQuestion : JStr
  qtype : JStr
  years : List JStr
  frequency : Nat
  variants : List JStr
  answer : JStr
deriving DecidableEq

/-- The run summary assembled in source lines 106 to 110. -/
structure RunSummary where
  totalPapers : Nat
  totalQuestionsExtracted : Nat
  totalRepeatedGroups : Nat
deriving DecidableEq

/-- The message of the error thrown when every extraction failed. -/
def allFailedMsg : JStr := "No questions could be extracted. Please check your files.".toList

/-- The successful extraction results of a run, in file order: the filter of
source line 90 applied to the settled per-document outcomes. -/
def successList (outcomes : List (Except JStr ExtractionResult)) : List ExtractionResult :=
  (outcomes.map Except.toOption).filterMap id

/-- Orchestration of source lines 89 to 110 after all per-document
extraction tasks settled.  The outcomes list holds, in file order, each
per-document result of extractQuestionsFromFile; the analyzer argument is
the analyzeRepeatedQuestions backend call.  The second component counts how
often the analyzer was invoked. -/
def processFiles (outcomes : List (Except JStr ExtractionResult))
    (analyzer : List ExtractionResult → Except JStr (List AnalysisGroup)) :
    Except JStr (List AnalysisGroup × RunSummary) × Nat :=
  let successfulExtractions := successList outcomes
  if successfulExtractions.length = 0 then (.error allFailedMsg, 0)
  else
    let totalQ := successfulExtractions.foldl (fun acc v => acc + v.questions.length) 0
    match analyzer successfulExtractions with
    | .error e => (.error e, 1)
    | .ok groups => (.ok (groups, ⟨outcomes.length, totalQ, groups.length⟩), 1)

/-- Model of Math.round: floor after adding one half. -/
def jsRound (q : Rat) : Int := Int.floor (q + 1 / 2)

/-- The progress percentage reported after the k-th settled document out of
total, source lines 58 to 62. -/
def updateProgressValue (total k : Nat) : Int :=
  min 90 (jsRound (((k : Rat) / (total : Rat)) * 90))

/-- The full sequence of progress values a run reports: the initial zero of
line 48, one value per settled document, and the analysis-phase values 92
and 100 of lines 100 and 104 when the run reaches that phase. -/
def progressSeq (total : Nat) (reachedAnalysis : Bool) : List Int :=
  0 :: ((List.range total).map (fun i => updateProgressValue total (i + 1)) ++
    (if reachedAnalysis then [92, 100] else []))

/-- The dimension bound of source line 236. -/
def MAX_IMAGE_DIMENSION : Rat := 1536

/-- The encoding quality of source line 237. -/
def IMAGE_QUALITY : Rat := 8 / 10

/-- The dimension computation of compressImage, source lines 252 to 264. -/
def resizeDims (w h : Rat) : Rat × Rat :=
  if w > MAX_IMAGE_DIMENSION ∨ h > MAX_IMAGE_DIMENSION then
    if w > h then (MAX_IMAGE_DIMENSION, h * (MAX_IMAGE_DIMENSION / w))
    else (w * (MAX_IMAGE_DIMENSION / h), MAX_IMAGE_DIMENSION)
  else (w, h)

/-- The arguments of the canvas re-encoding call of source line 279. -/
structure EncodeCall where
  width : Rat
  height : Rat
  format : JStr
  quality : Rat
deriving DecidableEq

/-- The canonical output media type of the image normalizer. -/
def jpegMime : JStr := "image/jpeg".toList

/-- The re-encoding call compressImage issues for an image of the given
decoded dimensions, source lines 252 to 279. -/
def toDataURLCall (w h : Rat) : EncodeCall :=
  ⟨(resizeDims w h).1, (resizeDims w h).2, jpegMime, IMAGE_QUALITY⟩

/-- How the compressImage promise settles: a successful re-encode carrying
the jpeg payload, a null canvas context, or a decode or read error. -/
inductive CompressOutcome where
  | encoded (jpegData : JStr)
  | ctxFail
  | decodeFail
deriving DecidableEq

/-- Payload behaviour of compressImage, source lines 243 to 287: a null
canvas context resolves the original payload, a decode or read error
rejects, a successful re-encode resolves the jpeg payload. -/
def compressImage (origData : JStr) : CompressOutcome → Except Unit JStr
  | .encoded d => .ok d
  | .ctxFail => .ok origData
  | .decodeFail => .error ()

/-- The inline data part handed to the extraction backend. -/
structure InlinePart where
  data : JStr
  mimeType : JStr
deriving DecidableEq

/-- Whether a declared media type is a raster image type. -/
def isImageType (t : JStr) : Bool := decide (t.take 6 = "image/".toList)

/-- Source lines 290 to 325: images go through compressImage and are
declared jpeg on success; a compression rejection falls through to the
standard reader, which passes the original bytes with the original type, as
do non-image documents. -/
def fileToGenerativePart (fileType origData : JStr) (co : CompressOutcome) : InlinePart :=
  if isImageType fileType then
    match compressImage origData co with
    | .ok d => ⟨d, jpegMime⟩
    | .error _ => ⟨origData, fileType⟩
  else ⟨origData, fileType⟩

/-! ### Lemmas about the string primitives -/

theorem isWs_toLowerC (c : Char) : isWs (toLowerC c) = isWs c := by
  unfold toLowerC
  split <;> rfl

theorem trimRight_cons_of_nil {cs : JStr} (h : trimRight cs = []) (c : Char) :
    trimRight (c :: cs) = if isWs c = true then [] else [c] := by
  simp only [trimRight, h]

theorem trimRight_cons_of_cons {cs : JStr} {x : Char} {r : JStr}
    (h : trimRight cs = x :: r) (c : Char) :
    trimRight (c :: cs) = c :: x :: r := by
  simp only [trimRight, h]

theorem trimRight_allWs : ∀ {l : JStr}, (∀ c ∈ l, isWs c = true) → trimRight l = [] := by
  intro l h
  induction l with
  | nil => rfl
  | cons c cs ih =>
    have hc : isWs c = true := h c (by simp)
    have ih2 : trimRight cs = [] := ih (fun x hx => h x (by simp [hx]))
    rw [trimRight_cons_of_nil ih2, if_pos hc]

theorem trimRight_cons_self {c : Char} {cs : JStr} (h : trimRight (c :: cs) = c :: cs) :
    trimRight cs = cs := by
  cases he : trimRight cs with
  | nil =>
    rw [trimRight_cons_of_nil he] at h
    by_cases hw : isWs c = true
    · rw [if_pos hw] at h
      exact absurd h (by simp)
    · rw [if_neg hw] at h
      have hcs : [] = cs := by simpa using h
      rw [← hcs]
  | cons x r =>
    rw [trimRight_cons_of_cons he] at h
    have hcs : x :: r = cs := by simpa using h
    exact hcs

theorem trimRight_cons_shape (c : Char) (cs : JStr) :
    trimRight (c :: cs) = [] ∨ ∃ r, trimRight (c :: cs) = c :: r := by
  cases he : trimRight cs with
  | nil =>
    rw [trimRight_cons_of_nil he]
    by_cases hw : isWs c = true
    · exact Or.inl (if_pos hw)
    · exact Or.inr ⟨[], if_neg hw⟩
  | cons x r => exact Or.inr ⟨x :: r, trimRight_cons_of_cons he c⟩

theorem trimRight_idem (l : JStr) : trimRight (trimRight l) = trimRight l := by
  induction l with
  | nil => rfl
  | cons c cs ih =>
    cases he : trimRight cs with
    | nil =>
      rw [trimRight_cons_of_nil he]
      by_cases hw : isWs c = true
      · rw [if_pos hw]
        rfl
      · rw [if_neg hw]
        rw [trimRight_cons_of_nil (show trimRight ([] : JStr) = [] from rfl), if_neg hw]
    | cons x r =>
      rw [trimRight_cons_of_cons he]
      rw [he] at ih
      exact trimRight_cons_of_cons ih c

theorem headWs_trimRight {l : JStr} (h : headWs l = false) : headWs (trimRight l) = false := by
  cases l with
  | nil => rfl
  | cons c cs =>
    rcases trimRight_cons_shape c cs with hs | ⟨r, hs⟩
    · rw [hs]; rfl
    · rw [hs]
      simpa [headWs] using h

theorem headWs_dropWhile (l : JStr) : headWs (l.dropWhile isWs) = false := by
  induction l with
  | nil => rfl
  | cons c cs ih =>
    by_cases hc : isWs c = true
    · simpa [List.dropWhile, hc] using ih
    · simp only [Bool.not_eq_true] at hc
      simp [List.dropWhile, hc, headWs]

theorem trimRight_toLowerL (l : JStr) : trimRight (toLowerL l) = toLowerL (trimRight l) := by
  induction l with
  | nil => rfl
  | cons c cs ih =>
    have hmap : toLowerL (c :: cs) = toLowerC c :: toLowerL cs := rfl
    rw [hmap]
    cases he : trimRight cs with
    | nil =>
      have he2 : trimRight (toLowerL cs) = [] := by
        rw [ih, he]
        rfl
      rw [trimRight_cons_of_nil he2, trimRight_cons_of_nil he, isWs_toLowerC]
      by_cases hw : isWs c = true
      · rw [if_pos hw, if_pos hw]
        rfl
      · rw [if_neg hw, if_neg hw]
        rfl
    | cons x r =>
      have he2 : trimRight (toLowerL cs) = toLowerC x :: toLowerL r := by
        rw [ih, he]
        rfl
      rw [trimRight_cons_of_cons he2, trimRight_cons_of_cons he]
      rfl

theorem tokens_ws_cons {c : Char} (hc : isWs c = true) (cs : JStr) :
    tokens (c :: cs) = tokens cs := by
  cases cs with
  | nil => simp [tokens, hc]
  | cons d cs2 => simp [tokens, hc]

theorem tokens_ne_nil {d : Char} (hd : isWs d = false) (cs : JStr) :
    tokens (d :: cs) ≠ [] := by
  cases cs with
  | nil => simp [tokens, hd]
  | cons e cs2 =>
    by_cases he : isWs e = true
    · simp [tokens, hd, he]
    · cases htok : tokens (e :: cs2) with
      | nil => simp [tokens, hd, he, htok]
      | cons t ts => simp [tokens, hd, he, htok]

theorem tokens_cons_cons_ws {c d : Char} (hc : isWs c = false) (hd : isWs d = true)
    (cs : JStr) : tokens (c :: d :: cs) = [c] :: tokens (d :: cs) := by
  simp [tokens, hc, hd]

theorem tokens_cons_cons_nws {c d : Char} (hc : isWs c = false) (hd : isWs d = false)
    (cs : JStr) {t : JStr} {ts : List JStr} (htok : tokens (d :: cs) = t :: ts) :
    tokens (c :: d :: cs) = (c :: t) :: ts := by
  simp [tokens, hc, hd, htok]

theorem tokens_nil_allWs : ∀ {l : JStr}, tokens l = [] → ∀ c ∈ l, isWs c = true := by
  intro l
  induction l with
  | nil => simp
  | cons c cs ih =>
    intro h x hx
    by_cases hc : isWs c = true
    · rcases List.mem_cons.mp hx with rfl | hx2
      · exact hc
      · exact ih (by rwa [tokens_ws_cons hc] at h) x hx2
    · exact absurd h (tokens_ne_nil (by simpa using hc) cs)

theorem tokens_dropWhile (l : JStr) : tokens (l.dropWhile isWs) = tokens l := by
  induction l with
  | nil => rfl
  | cons c cs ih =>
    by_cases hc : isWs c = true
    · rw [List.dropWhile_cons_of_pos (by simpa using hc), ih, tokens_ws_cons hc]
    · rw [List.dropWhile_cons_of_neg (by simpa using hc)]

theorem tokens_trimRight (l : JStr) : tokens (trimRight l) = tokens l := by
  induction l with
  | nil => rfl
  | cons c cs ih =>
    cases he : trimRight cs with
    | nil =>
      rw [trimRight_cons_of_nil he]
      have hcs : tokens cs = [] := by
        rw [← ih, he]
        rfl
      by_cases hw : isWs c = true
      · rw [if_pos hw, tokens_ws_cons hw, hcs]
        rfl
      · have hw2 : isWs c = false := by simpa using hw
        rw [if_neg hw]
        cases cs with
        | nil => rfl
        | cons d cs2 =>
          have hd : isWs d = true := tokens_nil_allWs hcs d (by simp)
          simp [tokens, hw2, hd, hcs]
    | cons x r =>
      rw [trimRight_cons_of_cons he]
      rw [he] at ih
      by_cases hw : isWs c = true
      · rw [tokens_ws_cons hw, tokens_ws_cons hw, ih]
      · have hw2 : isWs c = false := by simpa using hw
        cases cs with
        | nil => simp [trimRight] at he
        | cons d cs2 =>
          have hdx : d = x := by
            rcases trimRight_cons_shape d cs2 with hs | ⟨rr, hs⟩
            · rw [hs] at he
              exact absurd he (by simp)
            · rw [hs] at he
              exact (List.cons.injEq d rr x r ▸ he).1
          subst hdx
          by_cases hd : isWs d = true
          · rw [tokens_cons_cons_ws hw2 hd, tokens_cons_cons_ws hw2 hd, ih]
          · have hd2 : isWs d = false := by simpa using hd
            cases htok : tokens (d :: r) with
            | nil => exact absurd htok (tokens_ne_nil hd2 r)
            | cons t ts =>
              have htok2 : tokens (d :: cs2) = t :: ts := by rw [← ih, htok]
              rw [tokens_cons_cons_nws hw2 hd2 _ htok, tokens_cons_cons_nws hw2 hd2 _ htok2]

theorem tokens_toLowerL (l : JStr) : tokens (toLowerL l) = (tokens l).map toLowerL := by
  induction l with
  | nil => rfl
  | cons c cs ih =>
    cases cs with
    | nil =>
      by_cases hw : isWs c = true
      · simp [toLowerL, tokens, isWs_toLowerC, hw]
      · simp [toLowerL, tokens, isWs_toLowerC, hw]
    | cons d cs2 =>
      have hmap : toLowerL (c :: d :: cs2) = toLowerC c :: toLowerC d :: toLowerL cs2 := rfl
      rw [hmap]
      by_cases hc : isWs c = true
      · rw [tokens_ws_cons (by rw [isWs_toLowerC]; exact hc), tokens_ws_cons hc]
        exact ih
      · have hc2 : isWs c = false := by simpa using hc
        have hcl : isWs (toLowerC c) = false := by rw [isWs_toLowerC]; exact hc2
        by_cases hd : isWs d = true
        · rw [tokens_cons_cons_ws hcl (by rw [isWs_toLowerC]; exact hd) (toLowerL cs2),
            tokens_cons_cons_ws hc2 hd cs2, List.map_cons, ← ih]
          rfl
        · have hd2 : isWs d = false := by simpa using hd
          have hdl : isWs (toLowerC d) = false := by rw [isWs_toLowerC]; exact hd2
          cases htok : tokens (d :: cs2) with
          | nil => exact absurd htok (tokens_ne_nil hd2 cs2)
          | cons t ts =>
            have htok2 : tokens (toLowerC d :: toLowerL cs2) = toLowerL t :: ts.map toLowerL := by
              have hh : tokens (toLowerL (d :: cs2)) = (tokens (d :: cs2)).map toLowerL := ih
              rw [htok] at hh
              exact hh
            rw [tokens_cons_cons_nws hcl hdl (toLowerL cs2) htok2,
              tokens_cons_cons_nws hc2 hd2 cs2 htok]
            rfl

theorem sepJoin_cons_cons (c : Char) (t : JStr) (ts : List JStr) :
    sepJoin ((c :: t) :: ts) = c :: sepJoin (t :: ts) := by
  cases ts with
  | nil => rfl
  | cons u us => rfl

theorem sepJoin_cons_ne (t : JStr) {ts : List JStr} (h : ts ≠ []) :
    sepJoin (t :: ts) = t ++ ' ' :: sepJoin ts := by
  cases ts with
  | nil => exact absurd rfl h
  | cons u us => rfl

theorem collapse_tokens : ∀ (s : JStr), trimRight s = s →
    collapseAux false s = (if headWs s = true then [' '] else []) ++ sepJoin (tokens s) ∧
    collapseAux true s = sepJoin (tokens s) := by
  intro s
  induction s with
  | nil => exact fun _ => ⟨rfl, rfl⟩
  | cons c cs ih =>
    intro hnt
    have hnt2 : trimRight cs = cs := trimRight_cons_self hnt
    have ih2 := ih hnt2
    by_cases hc : isWs c = true
    · constructor
      · have h1 : collapseAux false (c :: cs) = ' ' :: collapseAux true cs := by
          simp [collapseAux, hc]
        rw [h1, ih2.2, tokens_ws_cons hc]
        simp [headWs, hc]
      · have h1 : collapseAux true (c :: cs) = collapseAux true cs := by
          simp [collapseAux, hc]
        rw [h1, ih2.2, tokens_ws_cons hc]
    · have hc2 : isWs c = false := by simpa using hc
      have h1 : ∀ b, collapseAux b (c :: cs) = c :: collapseAux false cs := by
        intro b
        simp [collapseAux, hc]
      have hgoal : c :: collapseAux false cs = sepJoin (tokens (c :: cs)) := by
        rw [ih2.1]
        cases cs with
        | nil => simp [tokens, hc2, headWs, sepJoin]
        | cons d cs2 =>
          by_cases hd : isWs d = true
          · rw [tokens_cons_cons_ws hc2 hd]
            have hne : tokens (d :: cs2) ≠ [] := by
              intro h0
              have h3 : trimRight (d :: cs2) = [] := trimRight_allWs (tokens_nil_allWs h0)
              rw [hnt2] at h3
              simp at h3
            rw [sepJoin_cons_ne [c] hne]
            simp [headWs, hd]
          · have hd2 : isWs d = false := by simpa using hd
            cases htok : tokens (d :: cs2) with
            | nil => exact absurd htok (tokens_ne_nil hd2 cs2)
            | cons t ts =>
              rw [tokens_cons_cons_nws hc2 hd2 cs2 htok, sepJoin_cons_cons]
              simp [headWs, hd2]
      constructor
      · rw [h1]
        simpa [headWs, hc2] using hgoal
      · rw [h1, hgoal]

theorem headWs_toLowerL (l : JStr) : headWs (toLowerL l) = headWs l := by
  cases l with
  | nil => rfl
  | cons c cs =>
    show headWs (toLowerC c :: toLowerL cs) = headWs (c :: cs)
    simp [headWs, isWs_toLowerC]

theorem tokens_jsTrim (q : JStr) : tokens (jsTrim q) = tokens q := by
  simp only [jsTrim]
  rw [tokens_trimRight, tokens_dropWhile]

theorem normKeyQ_eq_sepJoin (q : JStr) : normKeyQ q = sepJoin (tokensLow q) := by
  have h1 : trimRight (jsTrim q) = jsTrim q := by
    simp only [jsTrim]
    exact trimRight_idem _
  have h2 : trimRight (toLowerL (jsTrim q)) = toLowerL (jsTrim q) := by
    rw [trimRight_toLowerL, h1]
  have h3 : headWs (toLowerL (jsTrim q)) = false := by
    rw [headWs_toLowerL]
    simp only [jsTrim]
    exact headWs_trimRight (headWs_dropWhile q)
  have hmain := (collapse_tokens _ h2).1
  rw [h3] at hmain
  simp only [if_neg (by simp : ¬ (false = true)), List.nil_append] at hmain
  show collapseWs (toLowerL (jsTrim q)) = sepJoin (tokensLow q)
  simp only [collapseWs]
  rw [hmain, tokens_toLowerL, tokens_jsTrim]
  rfl

theorem normKeyQ_eq_of_tokensLow {q1 q2 : JStr} (h : tokensLow q1 = tokensLow q2) :
    normKeyQ q1 = normKeyQ q2 := by
  rw [normKeyQ_eq_sepJoin, normKeyQ_eq_sepJoin, h]

/-! ### Lemmas about the aggregation map -/

theorem lookupQ_addOcc_ne {k j : JStr} (h : k ≠ j) (m : QMap) (text year : JStr) :
    lookupQ (addOccurrence m k text year) j = lookupQ m j := by
  induction m with
  | nil => simp [addOccurrence, lookupQ, h]
  | cons p rest ih =>
    obtain ⟨k1, e⟩ := p
    by_cases h1 : k1 = k
    · subst h1
      simp [addOccurrence, lookupQ, h, ih]
    · simp [addOccurrence, lookupQ, h1, ih]

theorem lookupQ_addOcc_some {m : QMap} {k : JStr} {e : QEntry}
    (he : lookupQ m k = some e) (text year : JStr) :
    lookupQ (addOccurrence m k text year) k = some ⟨e.text, e.years ++ [year]⟩ := by
  induction m with
  | nil => simp [lookupQ] at he
  | cons p rest ih =>
    obtain ⟨k1, e1⟩ := p
    by_cases h1 : k1 = k
    · subst h1
      simp [lookupQ] at he
      simp [addOccurrence, lookupQ, he]
    · simp [lookupQ, h1] at he
      simp [addOccurrence, lookupQ, h1, ih he]

theorem lookupQ_addOcc_none {m : QMap} {k : JStr}
    (he : lookupQ m k = none) (text year : JStr) :
    lookupQ (addOccurrence m k text year) k = some ⟨text, [year]⟩ := by
  induction m with
  | nil => simp [addOccurrence, lookupQ]
  | cons p rest ih =>
    obtain ⟨k1, e1⟩ := p
    by_cases h1 : k1 = k
    · subst h1
      simp [lookupQ] at he
    · simp [lookupQ, h1] at he
      simp [addOccurrence, lookupQ, h1, ih he]

theorem occsAt_cons_pos {t j : JStr} (hk : aggKey t = j) (y : JStr)
    (occs : List (JStr × JStr)) :
    occsAt ((t, y) :: occs) j = (t, y) :: occsAt occs j := by
  simp [occsAt, List.filter_cons, hk]

theorem occsAt_cons_neg {t j : JStr} (hk : ¬ aggKey t = j) (y : JStr)
    (occs : List (JStr × JStr)) :
    occsAt ((t, y) :: occs) j = occsAt occs j := by
  simp [occsAt, List.filter_cons, hk]

theorem foldOcc_lookup : ∀ (occs : List (JStr × JStr)) (m : QMap) (j : JStr),
    lookupQ (foldOcc occs m) j =
      match lookupQ m j with
      | some e => some ⟨e.text, e.years ++ (occsAt occs j).map Prod.snd⟩
      | none =>
        match occsAt occs j with
        | [] => none
        | o :: os => some ⟨o.1, ((o :: os).map Prod.snd)⟩ := by
  intro occs
  induction occs with
  | nil =>
    intro m j
    cases hm : lookupQ m j <;> simp [foldOcc, occsAt, hm]
  | cons o occs ih =>
    intro m j
    obtain ⟨t, y⟩ := o
    have hstep : foldOcc ((t, y) :: occs) m = foldOcc occs (addOccurrence m (aggKey t) t y) := rfl
    rw [hstep, ih]
    by_cases hk : aggKey t = j
    · subst hk
      rw [occsAt_cons_pos rfl]
      cases hm : lookupQ m (aggKey t) with
      | some e =>
        rw [lookupQ_addOcc_some hm t y]
        simp
      | none =>
        rw [lookupQ_addOcc_none hm t y]
        simp
    · rw [occsAt_cons_neg hk, lookupQ_addOcc_ne hk]

theorem stepQuestion_acceptQ_none {q : Option JStr} (h : acceptQ q = none)
    (m : QMap) (sy : JStr) : stepQuestion m sy q = m := by
  cases q with
  | none => rfl
  | some s =>
    by_cases h0 : s = []
    · simp [stepQuestion, h0]
    · by_cases h3 : (jsTrim s).length < 3
      · simp [stepQuestion, h0, h3]
      · simp [acceptQ, h0, h3] at h

theorem stepQuestion_acceptQ_some {q : Option JStr} {t : JStr} (h : acceptQ q = some t)
    (m : QMap) (sy : JStr) : stepQuestion m sy q = addOccurrence m (aggKey t) t sy := by
  cases q with
  | none => simp [acceptQ] at h
  | some s =>
    by_cases h0 : s = []
    · simp [acceptQ, h0] at h
    · by_cases h3 : (jsTrim s).length < 3
      · simp [acceptQ, h0, h3] at h
      · have ht : t = jsTrim s := by
          simp [acceptQ, h0, h3] at h
          exact h.symm
        subst ht
        simp [stepQuestion, h0, h3]

theorem stepQuestion_eq_foldOcc : ∀ (qs : List (Option JStr)) (m : QMap) (sy : JStr),
    qs.foldl (fun m2 q => stepQuestion m2 sy q) m =
      foldOcc ((qs.filterMap acceptQ).map (fun t => (t, sy))) m := by
  intro qs
  induction qs with
  | nil =>
    intro m sy
    rfl
  | cons q qs ih =>
    intro m sy
    simp only [List.foldl_cons]
    cases ha : acceptQ q with
    | none =>
      rw [stepQuestion_acceptQ_none ha]
      simp only [List.filterMap_cons, ha]
      exact ih m sy
    | some t =>
      rw [stepQuestion_acceptQ_some ha]
      simp only [List.filterMap_cons, ha, List.map_cons]
      show _ = foldOcc ((t, sy) :: (qs.filterMap acceptQ).map (fun t => (t, sy))) m
      have hstep2 : foldOcc ((t, sy) :: (qs.filterMap acceptQ).map (fun t => (t, sy))) m
          = foldOcc ((qs.filterMap acceptQ).map (fun t => (t, sy)))
              (addOccurrence m (aggKey t) t sy) := rfl
      rw [hstep2]
      exact ih _ sy

theorem foldAgg_eq : ∀ (exs : List ExtractionResult) (m : QMap),
    exs.foldl
      (fun m0 ex =>
        ex.questions.foldl (fun m2 q => stepQuestion m2 (jsOrStr ex.year unknown) q) m0) m
      = foldOcc (occList exs) m := by
  intro exs
  induction exs with
  | nil =>
    intro m
    rfl
  | cons ex exs ih =>
    intro m
    show exs.foldl _ (ex.questions.foldl _ m) = foldOcc (occList (ex :: exs)) m
    rw [stepQuestion_eq_foldOcc, ih]
    simp only [occList, List.flatMap_cons, foldOcc, List.foldl_append, occOf]

theorem analyzeQuestionMap_eq_foldOcc (exs : List ExtractionResult) :
    analyzeQuestionMap exs = foldOcc (occList exs) [] :=
  foldAgg_eq exs []

theorem totalYears_addOccurrence (m : QMap) (k text year : JStr) :
    totalYears (addOccurrence m k text year) = totalYears m + 1 := by
  induction m with
  | nil => simp [addOccurrence, totalYears]
  | cons p rest ih =>
    obtain ⟨k1, e⟩ := p
    by_cases h : k1 = k
    · simp [addOccurrence, h, totalYears]
      omega
    · simp [addOccurrence, h, totalYears] at ih ⊢
      omega

theorem totalYears_foldOcc : ∀ (occs : List (JStr × JStr)) (m : QMap),
    totalYears (foldOcc occs m) = totalYears m + occs.length := by
  intro occs
  induction occs with
  | nil =>
    intro m
    simp [foldOcc]
  | cons o occs ih =>
    intro m
    obtain ⟨t, y⟩ := o
    have hstep : foldOcc ((t, y) :: occs) m = foldOcc occs (addOccurrence m (aggKey t) t y) := rfl
    rw [hstep, ih, totalYears_addOccurrence]
    simp
    omega

theorem acceptQ_isSome (q : Option JStr) : (acceptQ q).isSome = isAcceptedQ q := by
  cases q with
  | none => rfl
  | some s =>
    by_cases h0 : s = []
    · subst h0
      simp [acceptQ, isAcceptedQ, jsTrim, trimRight]
    · by_cases h3 : (jsTrim s).length < 3
      · have h4 : ¬ (3 ≤ (jsTrim s).length) := by omega
        simp [acceptQ, isAcceptedQ, h0, h3, h4]
      · have h4 : 3 ≤ (jsTrim s).length := by omega
        simp [acceptQ, isAcceptedQ, h0, h3, h4]

theorem filterMap_acceptQ_length (qs : List (Option JStr)) :
    (qs.filterMap acceptQ).length = (qs.filter isAcceptedQ).length := by
  induction qs with
  | nil => rfl
  | cons q qs ih =>
    cases ha : acceptQ q with
    | none =>
      have hb : isAcceptedQ q = false := by
        rw [← acceptQ_isSome, ha]
        rfl
      simp [List.filterMap_cons, List.filter_cons, ha, hb, ih]
    | some t =>
      have hb : isAcceptedQ q = true := by
        rw [← acceptQ_isSome, ha]
        rfl
      simp [List.filterMap_cons, List.filter_cons, ha, hb, ih]

theorem occList_length (exs : List ExtractionResult) :
    (occList exs).length = acceptedCount exs := by
  induction exs with
  | nil => rfl
  | cons ex exs ih =>
    simp only [occList, List.flatMap_cons, List.length_append, acceptedCount, List.map_cons,
      List.sum_cons] at *
    rw [ih]
    simp [occOf, filterMap_acceptQ_length]

/-! ### Invariants of the aggregation map and idempotence infrastructure -/

theorem unknown_ne_nil : unknown ≠ [] := by decide

theorem jsOrStr_ne_nil (o : Option JStr) : jsOrStr o unknown ≠ [] := by
  cases o with
  | none => exact unknown_ne_nil
  | some s =>
    by_cases h : s = []
    · simp only [jsOrStr, if_pos h]
      exact unknown_ne_nil
    · simp only [jsOrStr, if_neg h]
      exact h

theorem headWs_false_dropWhile {l : JStr} (h : headWs l = false) : l.dropWhile isWs = l := by
  cases l with
  | nil => rfl
  | cons c cs =>
    have hc : isWs c = false := by simpa [headWs] using h
    exact List.dropWhile_cons_of_neg (by simp [hc])

theorem jsTrim_idem (s : JStr) : jsTrim (jsTrim s) = jsTrim s := by
  have h1 : headWs (jsTrim s) = false := by
    simp only [jsTrim]
    exact headWs_trimRight (headWs_dropWhile s)
  show trimRight ((jsTrim s).dropWhile isWs) = jsTrim s
  rw [headWs_false_dropWhile h1]
  simp only [jsTrim]
  exact trimRight_idem _

theorem acceptQ_some_props {q : Option JStr} {t : JStr} (h : acceptQ q = some t) :
    jsTrim t = t ∧ 3 ≤ t.length := by
  cases q with
  | none => simp [acceptQ] at h
  | some s =>
    by_cases h0 : s = []
    · simp [acceptQ, h0] at h
    · by_cases h3 : (jsTrim s).length < 3
      · simp [acceptQ, h0, h3] at h
      · have ht : t = jsTrim s := by
          simp [acceptQ, h0, h3] at h
          exact h.symm
        subst ht
        exact ⟨jsTrim_idem s, by omega⟩

theorem occList_OccOk (exs : List ExtractionResult) : ∀ o ∈ occList exs, OccOk o := by
  intro o ho
  simp only [occList, List.mem_flatMap] at ho
  obtain ⟨ex, hex, ho2⟩ := ho
  simp only [occOf, List.mem_map] at ho2
  obtain ⟨t, ht, rfl⟩ := ho2
  simp only [List.mem_filterMap] at ht
  obtain ⟨q, hq, ha⟩ := ht
  have hp := acceptQ_some_props ha
  have hne : t ≠ [] := by
    intro h0
    rw [h0] at hp
    simp at hp
  exact ⟨hp.1, hne, hp.2, jsOrStr_ne_nil ex.year⟩

theorem entries_addOcc {m : QMap} (hm : ∀ p ∈ m, EntryOk p) {t y : JStr}
    (ho : OccOk (t, y)) : ∀ p ∈ addOccurrence m (aggKey t) t y, EntryOk p := by
  induction m with
  | nil =>
    intro p hp
    simp only [addOccurrence, List.mem_singleton] at hp
    subst hp
    exact ⟨rfl, ho.1, ho.2.1, ho.2.2.1, by simp, by simp [ho.2.2.2]⟩
  | cons p0 rest ih =>
    obtain ⟨k1, e⟩ := p0
    intro p hp
    by_cases h1 : k1 = aggKey t
    · simp only [addOccurrence, if_pos h1] at hp
      rcases List.mem_cons.mp hp with rfl | hp2
      · have he := hm (k1, e) (by simp)
        refine ⟨he.1, he.2.1, he.2.2.1, he.2.2.2.1, by simp, ?_⟩
        intro y2 hy2
        rcases List.mem_append.mp hy2 with hya | hyb
        · exact he.2.2.2.2.2 y2 hya
        · rw [List.mem_singleton.mp hyb]
          exact ho.2.2.2
      · exact hm p (by simp [hp2])
    · simp only [addOccurrence, if_neg h1] at hp
      rcases List.mem_cons.mp hp with rfl | hp2
      · exact hm (k1, e) (by simp)
      · exact ih (fun p3 hp3 => hm p3 (by simp [hp3])) p hp2

theorem mem_keys_addOcc {m : QMap} {k text year j : JStr}
    (h : j ∈ (addOccurrence m k text year).map Prod.fst) :
    j ∈ m.map Prod.fst ∨ j = k := by
  induction m with
  | nil =>
    simp only [addOccurrence, List.map_cons, List.map_nil, List.mem_singleton] at h
    exact Or.inr h
  | cons p rest ih =>
    obtain ⟨k1, e⟩ := p
    by_cases h1 : k1 = k
    · simp only [addOccurrence, if_pos h1, List.map_cons] at h
      rcases List.mem_cons.mp h with rfl | h2
      · exact Or.inl (by rw [List.map_cons]; exact List.mem_cons_self _ _)
      · exact Or.inl (by rw [List.map_cons]; exact List.mem_cons_of_mem _ h2)
    · simp only [addOccurrence, if_neg h1, List.map_cons] at h
      rcases List.mem_cons.mp h with rfl | h2
      · exact Or.inl (by rw [List.map_cons]; exact List.mem_cons_self _ _)
      · rcases ih h2 with ha | hb
        · exact Or.inl (by rw [List.map_cons]; exact List.mem_cons_of_mem _ ha)
        · exact Or.inr hb

theorem nodup_keys_addOcc {m : QMap} (hm : (m.map Prod.fst).Nodup) (k text year : JStr) :
    ((addOccurrence m k text year).map Prod.fst).Nodup := by
  induction m with
  | nil => simp [addOccurrence]
  | cons p rest ih =>
    obtain ⟨k1, e⟩ := p
    simp only [List.map_cons, List.nodup_cons] at hm
    by_cases h1 : k1 = k
    · simp only [addOccurrence, if_pos h1, List.map_cons, List.nodup_cons]
      exact hm
    · simp only [addOccurrence, if_neg h1, List.map_cons, List.nodup_cons]
      refine ⟨?_, ih hm.2⟩
      intro hmem
      rcases mem_keys_addOcc hmem with ha | hb
      · exact hm.1 ha
      · exact h1 hb

theorem foldOcc_MapOk : ∀ (occs : List (JStr × JStr)), (∀ o ∈ occs, OccOk o) →
    ∀ (m : QMap), MapOk m → MapOk (foldOcc occs m) := by
  intro occs
  induction occs with
  | nil =>
    intro _ m hm
    exact hm
  | cons o occs ih =>
    intro ho m hm
    obtain ⟨t, y⟩ := o
    have hstep : foldOcc ((t, y) :: occs) m = foldOcc occs (addOccurrence m (aggKey t) t y) := rfl
    rw [hstep]
    refine ih (fun o2 h2 => ho o2 (by simp [h2])) _ ⟨?_, ?_⟩
    · exact entries_addOcc hm.1 (ho (t, y) (by simp))
    · exact nodup_keys_addOcc hm.2 _ _ _

theorem analyzeQuestionMap_MapOk (exs : List ExtractionResult) :
    MapOk (analyzeQuestionMap exs) := by
  rw [analyzeQuestionMap_eq_foldOcc]
  exact foldOcc_MapOk _ (occList_OccOk exs) [] ⟨by simp, by simp⟩

theorem occList_synthetic {t : JStr} (ht : jsTrim t = t) (h0 : t ≠ []) (h3 : 3 ≤ t.length) :
    ∀ (ys : List JStr), (∀ y ∈ ys, y ≠ []) →
      occList (ys.map (fun y => (⟨[some t], some y, []⟩ : ExtractionResult)))
        = ys.map (fun y => (t, y)) := by
  intro ys
  induction ys with
  | nil =>
    intro _
    rfl
  | cons y ys ih =>
    intro hys
    have hlt : ¬ (jsTrim t).length < 3 := by
      rw [ht]
      omega
    have hacc : acceptQ (some t) = some t := by
      simp [acceptQ, h0, hlt, ht]
      omega
    have h1 : occOf ⟨[some t], some y, []⟩ = [(t, y)] := by
      have hyne : y ≠ [] := hys y (by simp)
      simp [occOf, List.filterMap_cons, hacc, jsOrStr, hyne]
    simp only [List.map_cons, occList, List.flatMap_cons]
    rw [h1]
    show (t, y) :: occList (ys.map (fun y => (⟨[some t], some y, []⟩ : ExtractionResult)))
      = (t, y) :: ys.map (fun y => (t, y))
    exact congrArg _ (ih (fun y2 h2 => hys y2 (by simp [h2])))

theorem occList_reflatten : ∀ (m : QMap), (∀ p ∈ m, EntryOk p) →
    occList (reflatten m) = m.flatMap (fun p => p.2.years.map (fun y => (p.2.text, y))) := by
  intro m
  induction m with
  | nil =>
    intro _
    rfl
  | cons p rest ih =>
    intro hm
    obtain ⟨k, e⟩ := p
    have hp : EntryOk (k, e) := hm (k, e) (by simp)
    simp only [reflatten, List.flatMap_cons]
    show occList (e.years.map (fun y => (⟨[some e.text], some y, []⟩ : ExtractionResult))
        ++ reflatten rest) = _
    have happ : ∀ (l1 l2 : List ExtractionResult),
        occList (l1 ++ l2) = occList l1 ++ occList l2 := by
      intro l1 l2
      simp [occList]
    rw [happ, occList_synthetic hp.2.1 hp.2.2.1 hp.2.2.2.1 e.years hp.2.2.2.2.2]
    show _ = e.years.map (fun y => (e.text, y)) ++ rest.flatMap _
    rw [ih (fun p3 hp3 => hm p3 (by simp [hp3]))]

theorem occsAt_entryOccs_nil : ∀ (m : QMap), (∀ p ∈ m, EntryOk p) →
    ∀ {j : JStr}, (∀ p ∈ m, p.1 ≠ j) →
    occsAt (m.flatMap (fun p => p.2.years.map (fun y => (p.2.text, y)))) j = [] := by
  intro m
  induction m with
  | nil =>
    intro _ j _
    rfl
  | cons p rest ih =>
    intro hm j hj
    obtain ⟨k, e⟩ := p
    simp only [List.flatMap_cons, occsAt, List.filter_append]
    have hk : aggKey e.text = k := ((hm (k, e) (by simp)).1).symm
    have hkj : aggKey e.text ≠ j := by
      rw [hk]
      exact hj (k, e) (by simp)
    have hA : (e.years.map (fun y => (e.text, y))).filter
        (fun o => decide (aggKey o.1 = j)) = [] := by
      rw [List.filter_eq_nil_iff]
      intro o ho
      rcases List.mem_map.mp ho with ⟨y, _, rfl⟩
      simp [hkj]
    rw [hA]
    have hB := ih (fun p3 hp3 => hm p3 (by simp [hp3]))
      (fun p3 hp3 => hj p3 (by simp [hp3]))
    simp only [occsAt] at hB
    rw [hB]
    rfl

theorem lookup_entryOccs : ∀ (m : QMap), MapOk m → ∀ (j : JStr),
    (match occsAt (m.flatMap (fun p => p.2.years.map (fun y => (p.2.text, y)))) j with
      | [] => none
      | o :: os => some (⟨o.1, ((o :: os).map Prod.snd)⟩ : QEntry)) = lookupQ m j := by
  intro m
  induction m with
  | nil =>
    intro _ j
    rfl
  | cons p rest ih =>
    intro hm j
    obtain ⟨k, e⟩ := p
    have hp : EntryOk (k, e) := hm.1 (k, e) (by simp)
    have hrest : MapOk rest := by
      refine ⟨fun p3 hp3 => hm.1 p3 (by simp [hp3]), ?_⟩
      have h2 := hm.2
      simp only [List.map_cons, List.nodup_cons] at h2
      exact h2.2
    have hk : aggKey e.text = k := hp.1.symm
    simp only [List.flatMap_cons, occsAt, List.filter_append]
    by_cases hj : k = j
    · have hA : (e.years.map (fun y => (e.text, y))).filter
          (fun o => decide (aggKey o.1 = j)) = e.years.map (fun y => (e.text, y)) := by
        rw [List.filter_eq_self]
        intro o ho
        rcases List.mem_map.mp ho with ⟨y, _, rfl⟩
        simp [hk, hj]
      have hB : (rest.flatMap (fun p => p.2.years.map (fun y => (p.2.text, y)))).filter
          (fun o => decide (aggKey o.1 = j)) = [] := by
        have hnk : ∀ p3 ∈ rest, p3.1 ≠ j := by
          intro p3 hp3
          have h2 := hm.2
          simp only [List.map_cons, List.nodup_cons] at h2
          intro hcon
          exact h2.1 (by
            rw [← hj] at hcon
            rw [← hcon]
            exact List.mem_map_of_mem Prod.fst hp3)
        have hthis := occsAt_entryOccs_nil rest hrest.1 hnk
        simp only [occsAt] at hthis
        exact hthis
      rw [hA, hB, List.append_nil]
      cases hy : e.years with
      | nil => exact absurd hy hp.2.2.2.2.1
      | cons y1 ys =>
        simp only [List.map_cons, lookupQ, if_pos hj]
        have hys2 : (ys.map (fun y => (e.text, y))).map Prod.snd = ys := by
          simp [List.map_map]
        rw [hys2, ← hy]
    · have hA : (e.years.map (fun y => (e.text, y))).filter
          (fun o => decide (aggKey o.1 = j)) = [] := by
        rw [List.filter_eq_nil_iff]
        intro o ho
        rcases List.mem_map.mp ho with ⟨y, _, rfl⟩
        simp [hk, hj]
      rw [hA, List.nil_append]
      have hIH := ih hrest j
      simp only [occsAt] at hIH
      rw [hIH]
      simp [lookupQ, hj]

theorem lookupQ_reaggregate (exs : List ExtractionResult) (j : JStr) :
    lookupQ (analyzeQuestionMap (reflatten (analyzeQuestionMap exs))) j
      = lookupQ (analyzeQuestionMap exs) j := by
  have hmo := analyzeQuestionMap_MapOk exs
  rw [analyzeQuestionMap_eq_foldOcc (reflatten (analyzeQuestionMap exs)), foldOcc_lookup,
    occList_reflatten _ hmo.1]
  show (match occsAt _ j with
    | [] => none
    | o :: os => some (⟨o.1, ((o :: os).map Prod.snd)⟩ : QEntry)) = _
  exact lookup_entryOccs _ hmo j

/-! ### Duplicate removal, orchestration and progress lemmas -/

theorem dedupAux_mem {α : Type} [DecidableEq α] :
    ∀ (l : List α) (seen : List α) (x : α),
      x ∈ dedupAux seen l ↔ x ∈ l ∧ x ∉ seen := by
  intro l
  induction l with
  | nil => simp [dedupAux]
  | cons a as ih =>
    intro seen x
    by_cases ha : a ∈ seen
    · rw [show dedupAux seen (a :: as) = dedupAux seen as from by simp [dedupAux, ha]]
      rw [ih]
      constructor
      · rintro ⟨h1, h2⟩
        exact ⟨List.mem_cons_of_mem a h1, h2⟩
      · rintro ⟨h1, h2⟩
        rcases List.mem_cons.mp h1 with rfl | h3
        · exact absurd ha h2
        · exact ⟨h3, h2⟩
    · rw [show dedupAux seen (a :: as) = a :: dedupAux (a :: seen) as from by
        simp [dedupAux, ha]]
      by_cases hx : x = a
      · subst hx
        simp [ha]
      · simp only [List.mem_cons, hx, false_or]
        rw [ih]
        constructor
        · rintro ⟨h1, h2⟩
          exact ⟨h1, fun hc => h2 (List.mem_cons_of_mem a hc)⟩
        · rintro ⟨h1, h2⟩
          refine ⟨h1, fun hc => ?_⟩
          rcases List.mem_cons.mp hc with h4 | h4
          · exact hx h4
          · exact h2 h4

theorem dedupAux_nodup {α : Type} [DecidableEq α] :
    ∀ (l : List α) (seen : List α), (dedupAux seen l).Nodup := by
  intro l
  induction l with
  | nil =>
    intro seen
    simp [dedupAux]
  | cons a as ih =>
    intro seen
    by_cases ha : a ∈ seen
    · rw [show dedupAux seen (a :: as) = dedupAux seen as from by simp [dedupAux, ha]]
      exact ih seen
    · rw [show dedupAux seen (a :: as) = a :: dedupAux (a :: seen) as from by
        simp [dedupAux, ha]]
      refine List.nodup_cons.mpr ⟨?_, ih (a :: seen)⟩
      intro hmem
      exact ((dedupAux_mem as (a :: seen) a).mp hmem).2 (by simp)

theorem dedupAux_sublist {α : Type} [DecidableEq α] :
    ∀ (l : List α) (seen : List α), (dedupAux seen l).Sublist l := by
  intro l
  induction l with
  | nil =>
    intro seen
    simp [dedupAux]
  | cons a as ih =>
    intro seen
    by_cases ha : a ∈ seen
    · rw [show dedupAux seen (a :: as) = dedupAux seen as from by simp [dedupAux, ha]]
      exact (ih seen).cons a
    · rw [show dedupAux seen (a :: as) = a :: dedupAux (a :: seen) as from by
        simp [dedupAux, ha]]
      exact (ih (a :: seen)).cons₂ a

theorem dedupFirst_mem {α : Type} [DecidableEq α] (l : List α) (x : α) :
    x ∈ dedupFirst l ↔ x ∈ l := by
  rw [dedupFirst, dedupAux_mem]
  simp

theorem dedupFirst_nodup {α : Type} [DecidableEq α] (l : List α) :
    (dedupFirst l).Nodup := dedupAux_nodup l []

theorem dedupFirst_sublist {α : Type} [DecidableEq α] (l : List α) :
    (dedupFirst l).Sublist l := dedupAux_sublist l []

theorem successList_nil_of_allError {outcomes : List (Except JStr ExtractionResult)}
    (h : ∀ o ∈ outcomes, ∃ e, o = Except.error e) : successList outcomes = [] := by
  induction outcomes with
  | nil => rfl
  | cons o os ih =>
    obtain ⟨e, rfl⟩ := h o (by simp)
    have ih2 := ih (fun o2 h2 => h o2 (by simp [h2]))
    simp only [successList, List.map_cons, Except.toOption, List.filterMap_cons] at ih2 ⊢
    exact ih2

theorem successList_append (o1 o2 : List (Except JStr ExtractionResult)) :
    successList (o1 ++ o2) = successList o1 ++ successList o2 := by
  simp [successList]

theorem successList_error_cons (e : JStr) (os : List (Except JStr ExtractionResult)) :
    successList (Except.error e :: os) = successList os := rfl

theorem successList_ok_cons (r : ExtractionResult) (os : List (Except JStr ExtractionResult)) :
    successList (Except.ok r :: os) = r :: successList os := rfl

theorem foldl_add_length (l : List ExtractionResult) :
    ∀ a : Nat, l.foldl (fun acc v => acc + v.questions.length) a
      = a + (l.map (fun r => r.questions.length)).sum := by
  induction l with
  | nil =>
    intro a
    simp
  | cons r rs ih =>
    intro a
    simp only [List.foldl_cons, List.map_cons, List.sum_cons, ih]
    omega

theorem jsRound_mono {q r : Rat} (h : q ≤ r) : jsRound q ≤ jsRound r :=
  Int.floor_le_floor (by linarith)

theorem updateProgressValue_le (total k : Nat) : updateProgressValue total k ≤ 90 :=
  min_le_left 90 _

theorem updateProgressValue_mono {total : Nat} (h0 : 0 < total) {k1 k2 : Nat}
    (h : k1 ≤ k2) : updateProgressValue total k1 ≤ updateProgressValue total k2 := by
  unfold updateProgressValue
  refine min_le_min le_rfl (jsRound_mono ?_)
  have hn : (0 : Rat) < (total : Rat) := by exact_mod_cast h0
  have hk : (k1 : Rat) ≤ (k2 : Rat) := by exact_mod_cast h
  gcongr

theorem updateProgressValue_nonneg {total : Nat} (k : Nat) (h0 : 0 < total) :
    0 ≤ updateProgressValue total k := by
  unfold updateProgressValue jsRound
  refine le_min (by norm_num) (Int.le_floor.mpr ?_)
  have hn : (0 : Rat) < (total : Rat) := by exact_mod_cast h0
  have hq : (0 : Rat) ≤ ((k : Rat) / (total : Rat)) * 90 := by positivity
  push_cast
  linarith

theorem getLastQ_mem : ∀ {l : List Int} {x : Int}, l.getLast? = some x → x ∈ l := by
  intro l
  induction l with
  | nil =>
    intro x h
    simp at h
  | cons a as ih =>
    intro x h
    cases as with
    | nil =>
      simp only [List.getLast?_singleton, Option.some.injEq] at h
      simp [h]
    | cons b bs =>
      rw [List.getLast?_cons_cons] at h
      exact List.mem_cons_of_mem a (ih h)

theorem chain_le_map_range (f : Nat → Int) (hf : ∀ i, f i ≤ f (i + 1)) :
    ∀ n, List.Chain' (fun a b : Int => a ≤ b) ((List.range n).map f) := by
  intro n
  induction n with
  | zero => simp
  | succ m ih =>
    rw [List.range_succ, List.map_append]
    refine List.chain'_append.mpr ⟨ih, List.chain'_singleton _, ?_⟩
    intro x hx y hy
    simp only [List.map_cons, List.map_nil, List.head?_cons, Option.mem_def,
      Option.some.injEq] at hy
    subst hy
    cases m with
    | zero => simp at hx
    | succ m2 =>
      rw [List.range_succ, List.map_append] at hx
      simp only [List.map_cons, List.map_nil] at hx
      rw [Option.mem_def, List.getLast?_concat] at hx
      have hx2 : f m2 = x := by simpa using hx
      rw [← hx2]
      exact hf m2

theorem mem_map_range_le90 {n : Nat} {x : Int}
    (hx : x ∈ (List.range n).map (fun i => updateProgressValue n (i + 1))) : x ≤ 90 := by
  rcases List.mem_map.mp hx with ⟨i, _, rfl⟩
  exact updateProgressValue_le n (i + 1)

theorem chain_progressSeq (n : Nat) (b : Bool) (hn : 0 < n) :
    List.Chain' (fun a b : Int => a ≤ b) (progressSeq n b) := by
  unfold progressSeq
  rw [List.chain'_cons']
  constructor
  · intro y hy
    obtain ⟨m, rfl⟩ : ∃ m, n = m + 1 := ⟨n - 1, by omega⟩
    rw [List.range_succ_eq_map] at hy
    simp only [List.map_cons, List.cons_append, List.head?_cons, Option.mem_def,
      Option.some.injEq] at hy
    subst hy
    exact updateProgressValue_nonneg 1 hn
  · refine List.chain'_append.mpr
      ⟨chain_le_map_range _ (fun i => updateProgressValue_mono hn (by omega)) n, ?_, ?_⟩
    · cases b
      · simp
      · simp only [if_true]
        refine List.chain'_cons.mpr ⟨by norm_num, List.chain'_singleton _⟩
    · intro x hx y hy
      cases b
      · simp at hy
      · simp only [if_true, List.head?_cons, Option.mem_def, Option.some.injEq] at hy
        subst hy
        have hx90 : x ≤ 90 := mem_map_range_le90 (getLastQ_mem hx)
        omega

/-! ### Claim theorems -/

/-- Claim C1, counterexample: the local duplicate removal of
extractQuestionsFromFile is plain Set membership, so two copies of the same
question differing only in case survive: the returned list contains two
entries that are equal after trim, case fold and whitespace collapse,
refuting the claimed case-insensitive whitespace-collapsed deduplication. -/
theorem extract_dedup_counterexample :
    extractQuestionsFromFile ("f".toList)
        (some (ParseOutcome.parsed (some ("2020".toList))
          (some [some ("Define X".toList), some ("define x".toList)])))
      = Except.ok ⟨[some ("Define X".toList), some ("define x".toList)],
          some ("2020".toList), "f".toList⟩
    ∧ normKeyQ ("Define X".toList) = normKeyQ ("define x".toList)
    ∧ ("Define X".toList : JStr) ≠ ("define x".toList : JStr) :=
  ⟨rfl, by decide, by decide⟩

/-- Claim C1, amended: for every successful extraction response,
extractQuestionsFromFile returns the questions list with exact duplicates
removed under strict string equality (case- and whitespace-sensitive),
preserving first-seen order, so that no two returned entries are identical
strings; the returned list is a subsequence of the parsed list with the
same elements. -/
theorem extract_dedup_exact (fileName : JStr) (y : Option JStr) (qs : List (Option JStr)) :
    extractQuestionsFromFile fileName (some (ParseOutcome.parsed y (some qs)))
        = Except.ok ⟨dedupFirst qs, some (jsOrStr y unknown), fileName⟩
    ∧ (dedupFirst qs).Nodup
    ∧ (dedupFirst qs).Sublist qs
    ∧ (∀ x, x ∈ dedupFirst qs ↔ x ∈ qs) :=
  ⟨rfl, dedupFirst_nodup qs, dedupFirst_sublist qs, fun x => dedupFirst_mem qs x⟩

/-- Claim C2, counterexample: when the backend returns content that fails to
parse, extractQuestionsFromFile does not fail; the parse error is caught and
a successful result with an empty questions list is returned. -/
theorem extract_parsefail_counterexample :
    extractQuestionsFromFile ("f".toList) (some ParseOutcome.fail)
      = Except.ok ⟨[], some unknown, "f".toList⟩ := rfl

/-- Claim C2, amended: when the backend returns no payload the extractor
fails with the no-response error, and such a per-document failure does not
abort the other documents (the success list of a run is unchanged by an
additional failed outcome); but when the returned content fails to parse,
the extractor instead returns a successful result with an empty questions
list and the Unknown year. -/
theorem extract_failure_handling :
    (∀ fileName : JStr, extractQuestionsFromFile fileName none = Except.error noRespMsg)
    ∧ (∀ fileName : JStr, extractQuestionsFromFile fileName (some ParseOutcome.fail)
        = Except.ok ⟨[], some unknown, fileName⟩)
    ∧ (∀ (o1 o2 : List (Except JStr ExtractionResult)) (e : JStr),
        successList (o1 ++ Except.error e :: o2) = successList (o1 ++ o2)) := by
  refine ⟨fun _ => rfl, fun _ => rfl, ?_⟩
  intro o1 o2 e
  rw [successList_append, successList_error_cons, successList_append]

/-- Claim C3: when every document outcome is a failure, the run fails with
the all-extractions-failed error and the analysis backend is never invoked
(invocation count zero). -/
theorem processFiles_all_failed (outcomes : List (Except JStr ExtractionResult))
    (analyzer : List ExtractionResult → Except JStr (List AnalysisGroup))
    (h : ∀ o ∈ outcomes, ∃ e, o = Except.error e) :
    processFiles outcomes analyzer = (Except.error allFailedMsg, 0) := by
  have hs : successList outcomes = [] := successList_nil_of_allError h
  simp [processFiles, hs]

/-- Witness for claim C3 at a concrete all-failed run. -/
theorem processFiles_all_failed_witness :
    processFiles [Except.error ("x".toList)] (fun _ => Except.ok [])
      = (Except.error allFailedMsg, 0) :=
  processFiles_all_failed [Except.error ("x".toList)] (fun _ => Except.ok [])
    (by
      intro o ho
      rw [List.mem_singleton.mp ho]
      exact ⟨"x".toList, rfl⟩)

/-- Claim C4, counterexample: two questions differing only in case and
whitespace are merged into a single entry with combined years, but the
stored text is the trimmed first-seen text, not the unchanged original:
with first-seen question beginning with a space, no entry keeps that
original string. -/
theorem aggregation_text_counterexample :
    analyzeQuestionMap
        [⟨[some (" Define X".toList)], some ("2021".toList), "a".toList⟩,
         ⟨[some ("define x".toList)], some ("2022".toList), "b".toList⟩]
      = [(("define x".toList : JStr),
          (⟨"Define X".toList, ["2021".toList, "2022".toList]⟩ : QEntry))]
    ∧ ("Define X".toList : JStr) ≠ (" Define X".toList : JStr) := by
  refine ⟨?_, ?_⟩ <;> decide

/-- Claim C4, amended: two accepted question strings with the same
lowercased word sequence (differing only in letter case or whitespace runs)
map to the same normalization key; aggregating one occurrence of each
yields a single entry holding the trimmed (otherwise unchanged) first-seen
text and one year element per occurrence, with unset years defaulting to
Unknown. -/
theorem aggregation_key_and_merge (q1 q2 f1 f2 : JStr) (y1 y2 : Option JStr)
    (hsame : tokensLow q1 = tokensLow q2)
    (h1 : q1 ≠ []) (h2 : q2 ≠ [])
    (hl1 : 3 ≤ (jsTrim q1).length) (hl2 : 3 ≤ (jsTrim q2).length) :
    normKeyQ q1 = normKeyQ q2
    ∧ analyzeQuestionMap [⟨[some q1], y1, f1⟩, ⟨[some q2], y2, f2⟩]
        = [(normKeyQ q1, ⟨jsTrim q1, [jsOrStr y1 unknown, jsOrStr y2 unknown]⟩)] := by
  have hkey : normKeyQ q1 = normKeyQ q2 := normKeyQ_eq_of_tokensLow hsame
  refine ⟨hkey, ?_⟩
  have hl1n : ¬ (jsTrim q1).length < 3 := by omega
  have hl2n : ¬ (jsTrim q2).length < 3 := by omega
  have ha1 : acceptQ (some q1) = some (jsTrim q1) := by simp [acceptQ, h1, hl1n]
  have ha2 : acceptQ (some q2) = some (jsTrim q2) := by simp [acceptQ, h2, hl2n]
  simp only [analyzeQuestionMap, List.foldl_cons, List.foldl_nil]
  rw [stepQuestion_acceptQ_some ha1, stepQuestion_acceptQ_some ha2]
  have hk12 : aggKey (jsTrim q2) = aggKey (jsTrim q1) := hkey.symm
  rw [hk12]
  show addOccurrence [(aggKey (jsTrim q1), ⟨jsTrim q1, [jsOrStr y1 unknown]⟩)]
      (aggKey (jsTrim q1)) (jsTrim q2) (jsOrStr y2 unknown) = _
  simp [addOccurrence, normKeyQ]

/-- Witness for claim C4 at two concrete case- and whitespace-variant
questions, one of them with an unset year. -/
theorem aggregation_key_and_merge_witness :
    normKeyQ ("Define  X".toList) = normKeyQ ("define x".toList)
    ∧ analyzeQuestionMap
        [⟨[some ("Define  X".toList)], some ("2021".toList), "a".toList⟩,
         ⟨[some ("define x".toList)], none, "b".toList⟩]
      = [(normKeyQ ("Define  X".toList),
          ⟨jsTrim ("Define  X".toList),
            [jsOrStr (some ("2021".toList)) unknown, jsOrStr none unknown]⟩)] :=
  aggregation_key_and_merge ("Define  X".toList) ("define x".toList) ("a".toList)
    ("b".toList) (some ("2021".toList)) none
    (by decide) (by decide) (by decide) (by decide) (by decide)

/-- Claim C5: every successfully completed run returns a summary whose
totalPapers counts all input documents including failed ones, whose
totalQuestionsExtracted sums the question counts of the successful
extractions only, and whose totalRepeatedGroups is the number of groups the
analyzer returned. -/
theorem processFiles_summary (outcomes : List (Except JStr ExtractionResult))
    (analyzer : List ExtractionResult → Except JStr (List AnalysisGroup))
    (groups : List AnalysisGroup) (s : RunSummary) (c : Nat)
    (h : processFiles outcomes analyzer = (Except.ok (groups, s), c)) :
    s.totalPapers = outcomes.length
    ∧ s.totalQuestionsExtracted
        = ((successList outcomes).map (fun r => r.questions.length)).sum
    ∧ s.totalRepeatedGroups = groups.length := by
  by_cases h0 : (successList outcomes).length = 0
  · simp [processFiles, h0] at h
  · simp only [processFiles, h0, if_false] at h
    cases ha : analyzer (successList outcomes) with
    | error e =>
      rw [ha] at h
      simp at h
    | ok gs =>
      rw [ha] at h
      simp only [Prod.mk.injEq, Except.ok.injEq] at h
      obtain ⟨⟨hg, hs⟩, hc⟩ := h
      rw [← hs]
      refine ⟨rfl, ?_, by rw [hg]⟩
      show (successList outcomes).foldl (fun acc v => acc + v.questions.length) 0 = _
      rw [foldl_add_length]
      omega

/-- Witness for claim C5 at a concrete one-document run. -/
theorem processFiles_summary_witness :
    (⟨1, 1, 1⟩ : RunSummary).totalPapers
        = ([Except.ok ⟨[some ("Q abc".toList)], some ("2020".toList), "a".toList⟩]
            : List (Except JStr ExtractionResult)).length
    ∧ (⟨1, 1, 1⟩ : RunSummary).totalQuestionsExtracted
        = ((successList [Except.ok ⟨[some ("Q abc".toList)], some ("2020".toList),
            "a".toList⟩]).map (fun r => r.questions.length)).sum
    ∧ (⟨1, 1, 1⟩ : RunSummary).totalRepeatedGroups
        = [(⟨[], [], [], [], 1, [], []⟩ : AnalysisGroup)].length :=
  processFiles_summary
    [Except.ok ⟨[some ("Q abc".toList)], some ("2020".toList), "a".toList⟩]
    (fun _ => Except.ok [⟨[], [], [], [], 1, [], []⟩])
    [⟨[], [], [], [], 1, [], []⟩] ⟨1, 1, 1⟩ 1 rfl

/-- Claim C6: whenever the compression promise does not settle with a
successful re-encode (decode or read error, or a null canvas context), the
original payload bytes are passed through unmodified and the document keeps
being processed. -/
theorem fileToGenerativePart_fallback (fileType origData : JStr) (co : CompressOutcome)
    (h : ∀ d, co ≠ CompressOutcome.encoded d) :
    (fileToGenerativePart fileType origData co).data = origData := by
  cases co with
  | encoded d => exact absurd rfl (h d)
  | ctxFail =>
    by_cases hi : isImageType fileType = true <;>
      simp [fileToGenerativePart, compressImage, hi]
  | decodeFail =>
    by_cases hi : isImageType fileType = true <;>
      simp [fileToGenerativePart, compressImage, hi]

/-- Witness for claim C6 at a concrete png document with a decode error. -/
theorem fileToGenerativePart_fallback_witness :
    (fileToGenerativePart ("image/png".toList) ("PAYLOAD".toList)
      CompressOutcome.decodeFail).data = "PAYLOAD".toList :=
  fileToGenerativePart_fallback ("image/png".toList) ("PAYLOAD".toList)
    CompressOutcome.decodeFail (fun _ hc => CompressOutcome.noConfusion hc)

/-- Claim C7: the progress value reported after the k-th settled document is
the completed fraction scaled into the zero-to-ninety sub-range and never
exceeds ninety, it is monotone in the number of settled documents, and the
whole reported sequence of a run is monotonically non-decreasing. -/
theorem progress_bounded_monotone (n : Nat) (b : Bool) (hn : 0 < n) :
    (∀ k, updateProgressValue n k = min 90 (jsRound (((k : Rat) / (n : Rat)) * 90)))
    ∧ (∀ k, updateProgressValue n k ≤ 90)
    ∧ (∀ k1 k2, k1 ≤ k2 → updateProgressValue n k1 ≤ updateProgressValue n k2)
    ∧ List.Chain' (fun a b : Int => a ≤ b) (progressSeq n b) :=
  ⟨fun _ => rfl, fun k => updateProgressValue_le n k,
    fun _ _ h => updateProgressValue_mono hn h, chain_progressSeq n b hn⟩

/-- Witness for claim C7 at a concrete three-document run that reaches the
analysis phase. -/
theorem progress_bounded_monotone_witness :
    List.Chain' (fun a b : Int => a ≤ b) (progressSeq 3 true)
    ∧ updateProgressValue 3 2 ≤ 90 :=
  ⟨(progress_bounded_monotone 3 true (by decide)).2.2.2,
    (progress_bounded_monotone 3 true (by decide)).2.1 2⟩

/-- Claim C8: images whose width or height exceeds the bound are scaled down
preserving the aspect ratio so the larger dimension equals the bound, images
within the bound keep their dimensions, and re-encoding always uses the jpeg
format at the fixed quality regardless of input format. -/
theorem compressImage_resize (w h : Rat) (hw : 0 < w) (hh : 0 < h) :
    ((MAX_IMAGE_DIMENSION < w ∨ MAX_IMAGE_DIMENSION < h) →
      max (resizeDims w h).1 (resizeDims w h).2 = MAX_IMAGE_DIMENSION
      ∧ (resizeDims w h).1 * h = w * (resizeDims w h).2
      ∧ (resizeDims w h).1 ≤ w ∧ (resizeDims w h).2 ≤ h)
    ∧ (w ≤ MAX_IMAGE_DIMENSION → h ≤ MAX_IMAGE_DIMENSION → resizeDims w h = (w, h))
    ∧ MAX_IMAGE_DIMENSION = 1536
    ∧ (toDataURLCall w h).format = jpegMime
    ∧ (toDataURLCall w h).quality = 8 / 10
    ∧ (∀ fileType origData d : JStr, isImageType fileType = true →
        fileToGenerativePart fileType origData (CompressOutcome.encoded d)
          = ⟨d, jpegMime⟩) := by
  refine ⟨?_, ?_, rfl, rfl, rfl,
    fun ft od d hi => by simp [fileToGenerativePart, hi, compressImage]⟩
  · intro hbig
    simp only [MAX_IMAGE_DIMENSION] at hbig
    by_cases hwh : w > h
    · have hr : resizeDims w h = (1536, h * (1536 / w)) := by
        simp only [resizeDims, MAX_IMAGE_DIMENSION]
        rw [if_pos hbig, if_pos hwh]
      have hw1536 : (1536 : Rat) < w := by
        rcases hbig with hb | hb
        · exact hb
        · linarith
      have hfrac : h * (1536 / w) ≤ 1536 := by
        have hrw : h * (1536 / w) = h * 1536 / w := by ring
        rw [hrw, div_le_iff₀ (by linarith)]
        nlinarith
      rw [hr]
      refine ⟨?_, ?_, ?_, ?_⟩
      · exact max_eq_left hfrac
      · show (1536 : Rat) * h = w * (h * (1536 / w))
        field_simp
        ring
      · show (1536 : Rat) ≤ w
        linarith
      · show h * (1536 / w) ≤ h
        have hfr1 : (1536 / w : Rat) ≤ 1 := by
          rw [div_le_one (by linarith)]
          linarith
        nlinarith
    · have hwh2 : w ≤ h := le_of_not_lt hwh
      have hr : resizeDims w h = (w * (1536 / h), 1536) := by
        simp only [resizeDims, MAX_IMAGE_DIMENSION]
        rw [if_pos hbig, if_neg hwh]
      have hh1536 : (1536 : Rat) < h := by
        rcases hbig with hb | hb
        · linarith
        · exact hb
      have hfrac : w * (1536 / h) ≤ 1536 := by
        have hrw : w * (1536 / h) = w * 1536 / h := by ring
        rw [hrw, div_le_iff₀ (by linarith)]
        nlinarith
      rw [hr]
      refine ⟨?_, ?_, ?_, ?_⟩
      · exact max_eq_right hfrac
      · show (w * (1536 / h)) * h = w * 1536
        field_simp
      · show w * (1536 / h) ≤ w
        have hfr1 : (1536 / h : Rat) ≤ 1 := by
          rw [div_le_one (by linarith)]
          linarith
        nlinarith
      · show (1536 : Rat) ≤ h
        linarith
  · intro hw1 hh1
    simp only [resizeDims, MAX_IMAGE_DIMENSION] at *
    rw [if_neg]
    push_neg
    exact ⟨hw1, hh1⟩

/-- Witness for claim C8 at a concrete oversized landscape image. -/
theorem compressImage_resize_witness :
    max (resizeDims 3072 768).1 (resizeDims 3072 768).2 = MAX_IMAGE_DIMENSION
    ∧ resizeDims 100 200 = (100, 200) :=
  ⟨((compressImage_resize 3072 768 (by decide) (by decide)).1 (by decide)).1,
    (compressImage_resize 100 200 (by decide) (by decide)).2.1 (by decide) (by decide)⟩

/-- Claim C9, counterexample: the exact aggregation merge is not commutative
over the order occurrences arrive: swapping two case-variant occurrences
changes the stored first-seen text and the order of the years list, so the
resulting mapping differs at the shared key. -/
theorem aggregation_comm_counterexample :
    analyzeQuestionMap
        [⟨[some ("Abc def".toList)], some ("2020".toList), "a".toList⟩,
         ⟨[some ("abc DEF".toList)], some ("2021".toList), "b".toList⟩]
      ≠ analyzeQuestionMap
        [⟨[some ("abc DEF".toList)], some ("2021".toList), "b".toList⟩,
         ⟨[some ("Abc def".toList)], some ("2020".toList), "a".toList⟩]
    ∧ lookupQ (analyzeQuestionMap
        [⟨[some ("Abc def".toList)], some ("2020".toList), "a".toList⟩,
         ⟨[some ("abc DEF".toList)], some ("2021".toList), "b".toList⟩]) ("abc def".toList)
      ≠ lookupQ (analyzeQuestionMap
        [⟨[some ("abc DEF".toList)], some ("2021".toList), "b".toList⟩,
         ⟨[some ("Abc def".toList)], some ("2020".toList), "a".toList⟩]) ("abc def".toList) := by
  refine ⟨?_, ?_⟩ <;> decide

/-- Claim C9, amended: exact aggregation is idempotent: re-flattening the
aggregated entries (one single-question extraction result per element of
each entry years list) and aggregating again yields the same mapping from
normalization key to entry; however the merge is not commutative over
arrival order, which fixes the stored first-seen text and the years order. -/
theorem aggregation_idempotent (exs : List ExtractionResult) (j : JStr) :
    lookupQ (analyzeQuestionMap (reflatten (analyzeQuestionMap exs))) j
      = lookupQ (analyzeQuestionMap exs) j :=
  lookupQ_reaggregate exs j

/-- Claim C10: the total number of recorded year elements of the aggregation
map equals the number of question occurrences that are strings with trimmed
length at least three, and every aggregated entry has a non-empty years
list: no accepted occurrence is dropped or counted twice. -/
theorem aggregation_conservation (exs : List ExtractionResult) :
    totalYears (analyzeQuestionMap exs) = acceptedCount exs
    ∧ ∀ p ∈ analyzeQuestionMap exs, p.2.years ≠ [] := by
  constructor
  · rw [analyzeQuestionMap_eq_foldOcc, totalYears_foldOcc, occList_length]
    simp [totalYears]
  · intro p hp
    exact ((analyzeQuestionMap_MapOk exs).1 p hp).2.2.2.2.1

/-- Witness for claim C10 at a concrete run with one accepted occurrence,
one too-short occurrence and one non-string occurrence. -/
theorem aggregation_conservation_witness :
    totalYears (analyzeQuestionMap [⟨[some ("Q abc".toList), some ("ab".toList), none],
        some ("2020".toList), "a".toList⟩])
      = acceptedCount [⟨[some ("Q abc".toList), some ("ab".toList), none],
        some ("2020".toList), "a".toList⟩]
    ∧ (("q abc".toList, (⟨"Q abc".toList, ["2020".toList]⟩ : QEntry)).2.years ≠ []) := by
  have h := aggregation_conservation [⟨[some ("Q abc".toList), some ("ab".toList), none],
    some ("2020".toList), "a".toList⟩]
  exact ⟨h.1, h.2 ("q abc".toList, ⟨"Q abc".toList, ["2020".toList]⟩) (by decide)⟩

end QPA
